import Mathlib

/-!
Shallow embedding of the retrieval engine of this repository
(`rag-utils` text utilities and the `RAGService` class), together with
proofs checking the specification's claims against it.

Modelling conventions:
* JavaScript numbers are modelled by exact rationals `ℚ`; the special
  values produced by division are modelled explicitly by the type
  `JsNum` (`nan`, signed `inf`, or a finite `num`).  Floating-point
  rounding is out of scope: the spec's formulas are stated over exact
  arithmetic.
* `Math.sqrt` is irrational-valued on most rationals, so it is passed
  to every definition that needs it as an abstract parameter
  `sqrtQ : ℚ → ℚ`.  No verified claim depends on the values of the
  square root beyond hypotheses stated explicitly in the theorems
  (for example `sqrtQ 0 = 0`); witnesses instantiate it with a
  concrete function.
* JavaScript strings are modelled by Lean `String`; `toLowerCase` by
  `String.toLower` (faithful on the ASCII range, which is all the
  letter-counting and keyword code inspects), `\w` by ASCII
  alphanumerics plus underscore and `\s` by `Char.isWhitespace`.
  Splitting on `/\s+/` is modelled by splitting at every whitespace
  character; the extra empty tokens this produces relative to the
  regex are removed by the very next length filter, so the two agree
  on everything downstream.
* Exceptions (`throw new Error(...)`) are modelled with `Except String`.
* JavaScript `Map` and `Set` are modelled by association lists with
  insertion-order semantics, matching their iteration order.
-/

/-- A JavaScript number that may be `NaN` or an infinity.  `inf true`
is `+Infinity`, `inf false` is `-Infinity`. -/
inductive JsNum where
  | nan : JsNum
  | inf : Bool → JsNum
  | num : ℚ → JsNum
deriving DecidableEq, Repr

namespace JsNum

/-- JavaScript division of finite values: `0/0` is `NaN`, `a/0` for
`a ≠ 0` is a signed infinity, and otherwise the exact quotient. -/
def jsDiv (a b : ℚ) : JsNum :=
  if b = 0 then (if a = 0 then .nan else .inf (decide (0 < a))) else .num (a / b)

/-- Adding a finite value to a JavaScript number: `NaN` and the
infinities absorb the addition. -/
def jsAddQ : JsNum → ℚ → JsNum
  | .nan, _ => .nan
  | .inf s, _ => .inf s
  | .num p, q => .num (p + q)

/-- JavaScript subtraction on possibly non-finite numbers. -/
def jsSub : JsNum → JsNum → JsNum
  | .nan, _ => .nan
  | _, .nan => .nan
  | .inf a, .inf b => if a = b then .nan else .inf a
  | .inf a, .num _ => .inf a
  | .num _, .inf b => .inf (!b)
  | .num p, .num q => .num (p - q)

/-- The strict comparison `q < x` as JavaScript evaluates it:
false for `NaN`, decided by the sign for infinities. -/
def gtQ : JsNum → ℚ → Bool
  | .nan, _ => false
  | .inf s, _ => s
  | .num p, q => decide (q < p)

end JsNum

deriving instance DecidableEq for Except

/-! ## Text feature extractor (`rag-utils`) -/

/-- `createSimpleEmbedding` from the source: lower-case the text, count
occurrences of each of the 26 Latin letters, and divide each bucket by
the total count when that total is positive. -/
def createSimpleEmbedding (text : String) : List ℚ :=
  let normalizedText := text.toList.map Char.toLower
  let embedding : List ℚ := (List.range 26).map (fun i =>
    ((normalizedText.filter (fun c => c.toNat = 97 + i)).length : ℚ))
  let sum := embedding.foldl (· + ·) 0
  if 0 < sum then embedding.map (fun c => c / sum) else embedding

/-- The fixed English stop-word set of `extractKeywords`. -/
def stopWords : List String :=
  ["a", "an", "the", "and", "or", "but", "is", "are", "was", "were",
   "be", "been", "being", "in", "on", "at", "to", "for", "with", "by",
   "about", "against", "between", "into", "through", "during", "before",
   "after", "above", "below", "from", "up", "down", "of", "off", "over",
   "under"]

/-- A character kept by the `replace(/[^\w\s]/g, "")` pass: an ASCII
word character (the text is already lower-cased when this runs). -/
def isWordChar (c : Char) : Bool :=
  c.isAlphanum || c = '_'

/-- Split a character list at every whitespace character (the
tokenisation step of `extractKeywords`; see the module comment about
`/\s+/`). -/
def splitWS : List Char → List (List Char)
  | [] => [[]]
  | c :: cs =>
    match splitWS cs, c.isWhitespace with
    | r :: rs, true => [] :: r :: rs
    | r :: rs, false => (c :: r) :: rs
    | [], _ => [[]]

/-- The token stream of `extractKeywords`: lower-case, strip
punctuation, split on whitespace, and drop tokens of length at most 2
or in the stop-word set. -/
def tokensOf (text : String) : List String :=
  ((splitWS ((text.toList.map Char.toLower).filter
      (fun c => isWordChar c || c.isWhitespace))).map
    (fun w => String.mk w)).filter
    (fun w => decide (2 < w.length) && !(stopWords.contains w))

/-- One step of the frequency count: `wordCounts.set(word, (get ?? 0) + 1)`
on a JavaScript `Map` keeps the key's original position. -/
def bumpWord (m : List (String × ℕ)) (w : String) : List (String × ℕ) :=
  if m.any (fun p => p.1 = w) then
    m.map (fun p => if p.1 = w then (p.1, p.2 + 1) else p)
  else m ++ [(w, 1)]

/-- The word-frequency map of `extractKeywords`, in insertion
(first-encounter) order. -/
def wordCounts (ws : List String) : List (String × ℕ) :=
  ws.foldl bumpWord []

/-- The distinct words of a token stream in first-encounter order
(the claim's reference order for tie-breaking). -/
def firstOccur (ws : List String) : List String :=
  ws.foldl (fun acc w => if acc.any (fun v => v = w) then acc else acc ++ [w]) []

/-- Insert an element into a list, placing it before the first entry
`y` with `le x y`; the building block of the stable sort below. -/
def insertLe (le : α → α → Bool) (x : α) : List α → List α
  | [] => [x]
  | y :: ys => if le x y then x :: y :: ys else y :: insertLe le x ys

/-- Stable sort with respect to the comparator-derived relation `le`
(`le x y` meaning "x may be placed before y", i.e. comparator ≤ 0).
For a consistent comparator this is the unique stable order, which is
what `Array.prototype.sort` guarantees. -/
def stableSort (le : α → α → Bool) (l : List α) : List α :=
  l.foldr (insertLe le) []

/-- Comparator order of `sort((a, b) => b[1] - a[1])`: descending by
count.  The counts are naturals, so the comparator is never `NaN`. -/
def countLe (a b : String × ℕ) : Bool :=
  decide (b.2 ≤ a.2)

/-- `extractKeywords` from the source: frequency-count the filtered
tokens, stable-sort descending by frequency, take the top 10 words. -/
def extractKeywords (text : String) : List String :=
  ((stableSort countLe (wordCounts (tokensOf text))).take 10).map (fun p => p.1)

/-! ## Similarity scorer (`rag-utils`) -/

/-- Dot product as accumulated by the loop of `cosineSimilarity`
(the loop runs over the common length; callers are length-checked). -/
def dotP : List ℚ → List ℚ → ℚ
  | a :: as, b :: bs => a * b + dotP as bs
  | _, _ => 0

/-- The arithmetic core of `cosineSimilarity`:
`dot / (sqrt(normA) * sqrt(normB))` with JavaScript division. -/
def cosineCore (sqrtQ : ℚ → ℚ) (vecA vecB : List ℚ) : JsNum :=
  JsNum.jsDiv (dotP vecA vecB) (sqrtQ (dotP vecA vecA) * sqrtQ (dotP vecB vecB))

/-- `cosineSimilarity` from the source: throws on a length mismatch,
otherwise computes the cosine quotient (with no zero-norm guard). -/
def cosineSimilarity (sqrtQ : ℚ → ℚ) (vecA vecB : List ℚ) :
    Except String JsNum :=
  if vecA.length ≠ vecB.length then .error "Vectors must have the same length"
  else .ok (cosineCore sqrtQ vecA vecB)

/-! ## Data model (`knowledge-types` and the service's internal shape) -/

/-- `KnowledgeChunk` from `knowledge-types`: the static input record.
`relatedChunks` is optional in the wire shape, hence `Option`. -/
structure KnowledgeChunk where
  id : String
  title : String
  content : String
  keywords : List String
  relatedChunks : Option (List String)
deriving DecidableEq, Repr

/-- `EnhancedKnowledgeChunk`: a `KnowledgeChunk` plus the derived
signature vector and auto-extracted keywords. -/
structure EnhancedKnowledgeChunk extends KnowledgeChunk where
  embedding : List ℚ
  autoKeywords : List String
deriving DecidableEq, Repr

/-- Look up a key in an association list modelling a JavaScript `Map`. -/
def mapGet (m : List (String × EnhancedKnowledgeChunk)) (k : String) :
    Option EnhancedKnowledgeChunk :=
  (m.find? (fun p => p.1 = k)).map (fun p => p.2)

/-- `Map.set` semantics: overwrite in place if the key exists, else
append (insertion order preserved). -/
def mapSet (m : List (String × EnhancedKnowledgeChunk)) (k : String)
    (v : EnhancedKnowledgeChunk) : List (String × EnhancedKnowledgeChunk) :=
  if m.any (fun p => p.1 = k) then
    m.map (fun p => if p.1 = k then (k, v) else p)
  else m ++ [(k, v)]

/-- The mutable state of the `RAGService` class. -/
structure RAGService where
  chunks : List EnhancedKnowledgeChunk
  isInitialized : Bool
  systemPrompt : String
  chunkMap : List (String × EnhancedKnowledgeChunk)
deriving DecidableEq, Repr

/-- `new RAGService()`: the field initialisers of the class. -/
def RAGService.new : RAGService :=
  { chunks := [], isInitialized := false, systemPrompt := "", chunkMap := [] }

/-! ## Relationship inferer -/

/-- The keyword-overlap count of `inferChunkRelationships`: the number
of entries of `[...chunk.keywords, ...chunk.autoKeywords]` (with
multiplicity) that occur among the other chunk's curated or auto
keywords. -/
def overlapCount (chunk other : EnhancedKnowledgeChunk) : ℕ :=
  ((chunk.keywords ++ chunk.autoKeywords).filter
    (fun keyword => other.keywords.contains keyword
      || other.autoKeywords.contains keyword)).length

/-- The claim-side keyword overlap, written from the spec's words: the
size of the intersection of the SET of A's curated and auto keywords
with the set of B's curated and auto keywords (each keyword counted
once).  Compare `overlapCount`, which the code computes over the
concatenated lists with multiplicity. -/
def specKeywordOverlap (a b : EnhancedKnowledgeChunk) : ℕ :=
  ((a.keywords ++ a.autoKeywords).dedup.filter
    (fun keyword => keyword ∈ b.keywords ++ b.autoKeywords)).length

/-- One step of the inner loop of `inferChunkRelationships`: skip the
chunk itself, compute the similarity (its dimension-mismatch error
propagates), and append the other chunk's identifier when the
overlap-or-similarity test passes. -/
def inferStep (sqrtQ : ℚ → ℚ) (chunk : EnhancedKnowledgeChunk)
    (acc : List String) (other : EnhancedKnowledgeChunk) :
    Except String (List String) := do
  if chunk.id = other.id then
    pure acc
  else
    let similarity ← cosineSimilarity sqrtQ chunk.embedding other.embedding
    if 2 ≤ overlapCount chunk other ∨ similarity.gtQ (0.6 : ℚ) = true then
      pure (acc ++ [other.id])
    else
      pure acc

/-- The body of the outer loop of `inferChunkRelationships` for one
chunk: skip chunks that already carry a non-empty related set,
otherwise collect every other chunk passing the overlap-or-similarity
test, in corpus order. -/
def inferOne (sqrtQ : ℚ → ℚ) (chunks : List EnhancedKnowledgeChunk)
    (chunk : EnhancedKnowledgeChunk) : Except String EnhancedKnowledgeChunk :=
  match chunk.relatedChunks with
  | some (_ :: _) => .ok chunk
  | _ => do
    let relatedChunks ← chunks.foldlM (inferStep sqrtQ chunk) []
    .ok { chunk with relatedChunks := some relatedChunks }

/-- The inner-loop test as a pure partial map: the identifier the loop
appends for `other`, if any (valid when the signatures have the fixed
dimension, so the similarity computation cannot throw). -/
def inferTest (sqrtQ : ℚ → ℚ) (chunk other : EnhancedKnowledgeChunk) :
    Option String :=
  if chunk.id = other.id then none
  else if 2 ≤ overlapCount chunk other
      ∨ (cosineCore sqrtQ chunk.embedding other.embedding).gtQ (0.6 : ℚ)
        = true then
    some other.id
  else none

/-- The pure value of the inferred related-identifier list. -/
def inferredIds (sqrtQ : ℚ → ℚ) (chunks : List EnhancedKnowledgeChunk)
    (chunk : EnhancedKnowledgeChunk) : List String :=
  chunks.filterMap (inferTest sqrtQ chunk)

/-- The pure value of one chunk after relationship inference. -/
def inferOnePure (sqrtQ : ℚ → ℚ) (chunks : List EnhancedKnowledgeChunk)
    (chunk : EnhancedKnowledgeChunk) : EnhancedKnowledgeChunk :=
  match chunk.relatedChunks with
  | some (_ :: _) => chunk
  | _ => { chunk with relatedChunks := some (inferredIds sqrtQ chunks chunk) }

/-- `inferChunkRelationships`: the in-place update of every chunk.
The inner loop only reads fields the outer loop never writes, so the
sequential mutation of the source is equivalent to this map. -/
def inferChunkRelationships (sqrtQ : ℚ → ℚ)
    (chunks : List EnhancedKnowledgeChunk) :
    Except String (List EnhancedKnowledgeChunk) :=
  chunks.mapM (inferOne sqrtQ chunks)

/-! ## Retrieval engine (orchestrator) -/

/-- The per-chunk enhancement step of `initialize`: embed and
auto-extract keywords from the title+content concatenation. -/
def enhanceChunk (chunk : KnowledgeChunk) : EnhancedKnowledgeChunk :=
  let fullText := chunk.title ++ "\n\n" ++ chunk.content
  { chunk with
    embedding := createSimpleEmbedding fullText
    autoKeywords := extractKeywords fullText }

/-- `initialize` from the source.  The source stores shared object
references in `chunkMap` before running inference, and inference
mutates those same objects' `relatedChunks` in place, so the map's
values carry the inferred relations; the functional model therefore
populates the map from the inferred chunks. -/
def RAGService.initialize (sqrtQ : ℚ → ℚ) (svc : RAGService)
    (knowledgeChunks : List KnowledgeChunk) (systemPrompt : String) :
    Except String RAGService :=
  if svc.isInitialized then .ok svc
  else if 0 < svc.chunks.length ∧ svc.systemPrompt = systemPrompt then .ok svc
  else do
    let enhanced := knowledgeChunks.map enhanceChunk
    let inferred ← inferChunkRelationships sqrtQ enhanced
    let chunkMap := inferred.foldl (fun m e => mapSet m e.id e) svc.chunkMap
    .ok { svc with
      systemPrompt := systemPrompt
      chunks := inferred
      chunkMap := chunkMap
      isInitialized := true }

/-- The candidate pool of `getRelevantContext`:
`chunks.length > 50 ? chunks.slice(0, 50) : chunks`. -/
def RAGService.candidates (svc : RAGService) : List EnhancedKnowledgeChunk :=
  if 50 < svc.chunks.length then svc.chunks.take 50 else svc.chunks

/-- Does `hay` start with `needle`?  Helper for the substring test. -/
def leadsList : List Char → List Char → Bool
  | [], _ => true
  | _ :: _, [] => false
  | a :: as, b :: bs => a = b && leadsList as bs

/-- JavaScript `String.prototype.includes`: `needle` occurs
contiguously in `hay` (true for the empty needle). -/
def hasSubstring : List Char → List Char → Bool
  | [], needle => needle.isEmpty
  | h :: t, needle => leadsList needle (h :: t) || hasSubstring t needle

/-- One boosted entry of the `similarities` array:
`score += manualKeywordMatches * 0.15 + autoKeywordMatches * 0.05`. -/
def boostItem (combinedQuery : String) (queryKeywords : List String)
    (item : EnhancedKnowledgeChunk × JsNum) :
    EnhancedKnowledgeChunk × JsNum :=
  let manualKeywordMatches := (item.1.keywords.filter (fun keyword =>
    hasSubstring (combinedQuery.toList.map Char.toLower)
      (keyword.toList.map Char.toLower))).length
  let autoKeywordMatches := (item.1.autoKeywords.filter (fun keyword =>
    queryKeywords.contains keyword)).length
  (item.1, item.2.jsAddQ
    (manualKeywordMatches * (0.15 : ℚ) + autoKeywordMatches * (0.05 : ℚ)))

/-- The scored candidate list of `getRelevantContext`: cosine
similarities of each candidate against the signature of the combined
query (the source's `query + " " + conversationHistory`), then the
keyword boost pass over the similarity entries.  Errors of
`cosineSimilarity` propagate. -/
def RAGService.scoredCandidates (sqrtQ : ℚ → ℚ) (svc : RAGService)
    (query : String) (conversationHistory : String) :
    Except String (List (EnhancedKnowledgeChunk × JsNum)) :=
  (svc.candidates.mapM (fun chunk =>
    (cosineSimilarity sqrtQ
      (createSimpleEmbedding (query ++ " " ++ conversationHistory))
      chunk.embedding).map
      (fun score => (chunk, score)))).map
    (fun similarities => similarities.map
      (boostItem (query ++ " " ++ conversationHistory)
        (extractKeywords (query ++ " " ++ conversationHistory))))

/-- The sort order of `sort((a, b) => b.score - a.score)` under the
ECMAScript `SortCompare` coercion: a comparator value of `NaN` is
treated as `+0`, infinities by their sign. -/
def scoreLe (x y : EnhancedKnowledgeChunk × JsNum) : Bool :=
  match JsNum.jsSub y.2 x.2 with
  | .nan => true
  | .inf s => !s
  | .num q => decide (q ≤ 0)

/-- `Set`-style append: add an element unless already present. -/
def setAdd (l : List String) (x : String) : List String :=
  if l.contains x then l else l ++ [x]

/-- The related-identifier collection pass of `getRelevantContext`:
for each top chunk, add its related identifiers that are not already
top-chunk identifiers to an insertion-ordered set. -/
def collectRelatedIds (topChunks : List EnhancedKnowledgeChunk)
    (topChunkIds : List String) : List String :=
  topChunks.foldl (fun acc chunk =>
    (chunk.relatedChunks.getD []).foldl (fun acc2 relatedId =>
      if topChunkIds.contains relatedId then acc2 else setAdd acc2 relatedId)
      acc) []

/-- The `topChunks` array of `getRelevantContext`: sort the boosted
entries by the score comparator and keep the first `maxChunks`
chunks. -/
def topChunksOf (boosted : List (EnhancedKnowledgeChunk × JsNum))
    (maxChunks : ℕ) : List EnhancedKnowledgeChunk :=
  ((stableSort scoreLe boosted).take maxChunks).map (fun item => item.1)

/-- The ranking, relationship-expansion and rendering passes of
`getRelevantContext` after the scoring pass: take the top `maxChunks`
sorted chunks, expand via related identifiers resolved through the
lookup map (at most 2, skipping unresolvable ones), annotate sections
whose identifier is not among the top-chunk identifiers as related
information, and join with the fixed delimiter. -/
def renderFromBoosted (svc : RAGService)
    (boosted : List (EnhancedKnowledgeChunk × JsNum)) (maxChunks : ℕ) :
    String :=
  String.intercalate "\n\n---\n\n"
    ((topChunksOf boosted maxChunks
        ++ ((collectRelatedIds (topChunksOf boosted maxChunks)
              ((topChunksOf boosted maxChunks).map
                (fun chunk => chunk.id))).filterMap
            (mapGet svc.chunkMap)).take 2).map
      (fun chunk =>
        "## " ++ chunk.title
          ++ (if ((topChunksOf boosted maxChunks).map
                (fun c => c.id)).contains chunk.id
              then "" else " (Related Information)")
          ++ "\n\n" ++ chunk.content))

/-- `getRelevantContext` from the source, as a function of the engine
state: the readiness check, the scoring pass, then the pure
ranking-and-rendering pass.  The method writes no field of `this` (it
only builds local arrays), so the state needs no output position; the
claim about that frame condition is stated on `getRelevantContextS`
below. -/
def RAGService.getRelevantContext (sqrtQ : ℚ → ℚ) (svc : RAGService)
    (query : String) (conversationHistory : String) (maxChunks : ℕ) :
    Except String String :=
  if svc.isInitialized = false then .error "RAG Service not initialized"
  else
    (svc.scoredCandidates sqrtQ query conversationHistory).map
      (fun boosted => renderFromBoosted svc boosted maxChunks)

/-- The state-passing view of the method: the source assigns no field
of `this` in `getRelevantContext`, so the resulting state is the input
state. -/
def RAGService.getRelevantContextS (sqrtQ : ℚ → ℚ) (svc : RAGService)
    (query : String) (conversationHistory : String) (maxChunks : ℕ) :
    RAGService × Except String String :=
  (svc, svc.getRelevantContext sqrtQ query conversationHistory maxChunks)

/-- `getSystemPrompt`. -/
def RAGService.getSystemPrompt (svc : RAGService) : String :=
  svc.systemPrompt

/-- `isReady`. -/
def RAGService.isReady (svc : RAGService) : Bool :=
  svc.isInitialized

/-- `getChunkIds`. -/
def RAGService.getChunkIds (svc : RAGService) : List String :=
  svc.chunks.map (fun chunk => chunk.id)

/-- The comparator order on index-tagged elements: strictly before, or
tied under the comparator and originally earlier.  A stable sort of the
plain list behaves exactly like any sort with respect to this order on
the index-tagged list. -/
def idxLe (le : α → α → Bool) (x y : ℕ × α) : Bool :=
  le x.2 y.2 && (!(le y.2 x.2) || decide (x.1 ≤ y.1))

/-- The finite value of a score known not to be `NaN` or infinite
(0 on the excluded cases, which never occur under that hypothesis). -/
def qOf : JsNum → ℚ
  | .num q => q
  | _ => 0

/-- A total proxy order agreeing with the score comparator order on
entries whose scores are finite numbers. -/
def numScoreLe (x y : EnhancedKnowledgeChunk × JsNum) : Bool :=
  decide (qOf y.2 ≤ qOf x.2)

/-! ## The signature vector (claim C6) -/

/-- The number of occurrences of the `i`-th Latin letter in the
lowercased text (the spec's per-letter bucket count). -/
def letterCount (text : String) (i : ℕ) : ℕ :=
  ((text.toList.map Char.toLower).filter (fun c => c.toNat = 97 + i)).length

/-- The total number of Latin letters in the lowercased text (the
spec's "total letter count"). -/
def letterTotal (text : String) : ℕ :=
  ((text.toList.map Char.toLower).filter
    (fun c => 97 ≤ c.toNat && c.toNat ≤ 122)).length

/-! ## A concrete two-chunk engine for evaluating the pipeline -/

/-- A concrete enhanced chunk whose signature is the unit vector of
the letter a. -/
def chunkA : EnhancedKnowledgeChunk :=
  ⟨⟨"a", "A", "aaa", [], some ["b", "zz"]⟩,
    (1 : ℚ) :: List.replicate 25 0, []⟩

/-- A concrete enhanced chunk whose signature is the unit vector of
the letter b. -/
def chunkB : EnhancedKnowledgeChunk :=
  ⟨⟨"b", "B", "bbb", [], some []⟩,
    (0 : ℚ) :: 1 :: List.replicate 24 0, []⟩

/-- A ready two-chunk engine state over `chunkA` and `chunkB`. -/
def demoService : RAGService :=
  ⟨[chunkA, chunkB], true, "p", [("a", chunkA), ("b", chunkB)]⟩

/-- The scored candidates of `demoService` for the query "aaa" with
empty history, as produced by the scoring pass. -/
def demoBoosted : List (EnhancedKnowledgeChunk × JsNum) :=
  demoService.candidates.map (fun chunk =>
    boostItem ("aaa" ++ " " ++ "") (extractKeywords ("aaa" ++ " " ++ ""))
      (chunk, cosineCore (fun _ => (1 : ℚ))
        (createSimpleEmbedding ("aaa" ++ " " ++ "")) chunk.embedding))

/-! ## Generic facts about the stable sort -/

theorem insertLe_perm (le : α → α → Bool) (x : α) :
    ∀ l : List α, (insertLe le x l).Perm (x :: l)
  | [] => List.Perm.refl _
  | y :: ys => by
    unfold insertLe
    by_cases h : le x y
    · simp [h]
    · simp only [h]
      exact ((insertLe_perm le x ys).cons y).trans (List.Perm.swap x y ys)

theorem stableSort_perm (le : α → α → Bool) :
    ∀ l : List α, (stableSort le l).Perm l
  | [] => List.Perm.refl _
  | x :: xs =>
    (insertLe_perm le x (stableSort le xs)).trans
      ((stableSort_perm le xs).cons x)

theorem mem_stableSort (le : α → α → Bool) (l : List α) (a : α) :
    a ∈ stableSort le l ↔ a ∈ l :=
  (stableSort_perm le l).mem_iff

theorem insertLe_pairwise (le : α → α → Bool)
    (htot : ∀ a b, le a b || le b a)
    (htrans : ∀ a b c, le a b = true → le b c = true → le a c = true)
    (x : α) :
    ∀ l : List α, l.Pairwise (fun a b => le a b = true) →
      (insertLe le x l).Pairwise (fun a b => le a b = true)
  | [], _ => by simp [insertLe]
  | y :: ys, hl => by
    rw [List.pairwise_cons] at hl
    unfold insertLe
    by_cases h : le x y
    · simp only [h, if_true]
      refine List.Pairwise.cons ?_ (List.Pairwise.cons hl.1 hl.2)
      intro b hb
      rcases List.mem_cons.mp hb with hb | hb
      · exact hb ▸ h
      · exact htrans x y b h (hl.1 b hb)
    · simp only [h, if_false]
      have hyx : le y x := by
        rcases Bool.or_eq_true_iff.mp (htot x y) with h' | h'
        · exact absurd h' h
        · exact h'
      refine List.Pairwise.cons ?_ (insertLe_pairwise le htot htrans x ys hl.2)
      intro b hb
      rcases List.mem_cons.mp ((insertLe_perm le x ys).mem_iff.mp hb) with hb | hb
      · exact hb.symm ▸ hyx
      · exact hl.1 b hb

theorem stableSort_pairwise (le : α → α → Bool)
    (htot : ∀ a b, le a b || le b a)
    (htrans : ∀ a b c, le a b = true → le b c = true → le a c = true) :
    ∀ l : List α, (stableSort le l).Pairwise (fun a b => le a b = true)
  | [] => List.Pairwise.nil
  | x :: xs =>
    insertLe_pairwise le htot htrans x (stableSort le xs)
      (stableSort_pairwise le htot htrans xs)

theorem insertLe_congr (le le' : α → α → Bool) (x : α) :
    ∀ l : List α, (∀ y ∈ l, le x y = le' x y) →
      insertLe le x l = insertLe le' x l
  | [], _ => rfl
  | y :: ys, h => by
    unfold insertLe
    rw [h y (List.mem_cons_self y ys)]
    by_cases h' : le' x y
    · simp [h']
    · simp only [h', if_false]
      rw [insertLe_congr le le' x ys (fun b hb => h b (List.mem_cons_of_mem y hb))]

theorem stableSort_congr (le le' : α → α → Bool) :
    ∀ l : List α, (∀ a ∈ l, ∀ b ∈ l, le a b = le' a b) →
      stableSort le l = stableSort le' l
  | [], _ => rfl
  | x :: xs, h => by
    show insertLe le x (stableSort le xs) = insertLe le' x (stableSort le' xs)
    rw [stableSort_congr le le' xs
      (fun a ha b hb => h a (List.mem_cons_of_mem x ha) b (List.mem_cons_of_mem x hb))]
    exact insertLe_congr le le' x _ (fun y hy =>
      h x (List.mem_cons_self x xs) y
        (List.mem_cons_of_mem x ((mem_stableSort le' xs y).mp hy)))

theorem idxLe_total (le : α → α → Bool) (htot : ∀ a b, le a b || le b a)
    (x y : ℕ × α) : idxLe le x y || idxLe le y x := by
  unfold idxLe
  rcases Bool.or_eq_true_iff.mp (htot x.2 y.2) with h | h
  · by_cases h' : le y.2 x.2
    · rcases Nat.le_total x.1 y.1 with hi | hi <;> simp [h, h', hi]
    · simp [h, h']
  · by_cases h' : le x.2 y.2
    · rcases Nat.le_total x.1 y.1 with hi | hi <;> simp [h, h', hi]
    · simp [h, h']

theorem idxLe_trans (le : α → α → Bool)
    (htrans : ∀ a b c, le a b = true → le b c = true → le a c = true)
    (x y z : ℕ × α) (h1 : idxLe le x y = true) (h2 : idxLe le y z = true) :
    idxLe le x z = true := by
  unfold idxLe at *
  rw [Bool.and_eq_true, Bool.or_eq_true_iff] at h1 h2
  rw [Bool.and_eq_true, Bool.or_eq_true_iff]
  refine ⟨htrans _ _ _ h1.1 h2.1, ?_⟩
  by_cases hzx : le z.2 x.2
  · have hzy : le z.2 y.2 := htrans _ _ _ hzx h1.1
    have hyx : le y.2 x.2 := htrans _ _ _ h2.1 hzx
    rcases h1.2 with h' | h'
    · exact absurd hyx (by simpa using h')
    · rcases h2.2 with h'' | h''
      · exact absurd hzy (by simpa using h'')
      · right
        exact decide_eq_true (Nat.le_trans (of_decide_eq_true h') (of_decide_eq_true h''))
  · left
    simpa using hzx

theorem insertLe_idxLe_map_snd (le : α → α → Bool) (k : ℕ) (a : α) :
    ∀ M : List (ℕ × α), (∀ p ∈ M, k < p.1) →
      (insertLe (idxLe le) (k, a) M).map Prod.snd =
        insertLe le a (M.map Prod.snd)
  | [], _ => rfl
  | p :: M', h => by
    have hk : decide (k ≤ p.1) = true :=
      decide_eq_true (Nat.le_of_lt (h p (List.mem_cons_self p M')))
    have : idxLe le (k, a) p = le a p.2 := by
      unfold idxLe
      simp [hk]
    unfold insertLe
    rw [this]
    by_cases h' : le a p.2
    · simp [h']
    · simp only [h', Bool.false_eq_true, if_false, List.map_cons]
      rw [insertLe_idxLe_map_snd le k a M'
        (fun q hq => h q (List.mem_cons_of_mem p hq))]

theorem stableSort_enumFrom (le : α → α → Bool) :
    ∀ (l : List α) (k : ℕ),
      (stableSort (idxLe le) (List.enumFrom k l)).map Prod.snd =
        stableSort le l
  | [], _ => rfl
  | a :: l, k => by
    show (insertLe (idxLe le) (k, a)
        (stableSort (idxLe le) (List.enumFrom (k + 1) l))).map Prod.snd =
      insertLe le a (stableSort le l)
    rw [insertLe_idxLe_map_snd le k a _ ?_, stableSort_enumFrom le l (k + 1)]
    intro p hp
    have hm := (mem_stableSort (idxLe le) (List.enumFrom (k + 1) l) p).mp hp
    obtain ⟨i, b⟩ := p
    exact Nat.lt_of_lt_of_le (Nat.lt_succ_self k) (List.mem_enumFrom hm).1

theorem stableSort_enum (le : α → α → Bool) (l : List α) :
    (stableSort (idxLe le) l.enum).map Prod.snd = stableSort le l :=
  stableSort_enumFrom le l 0

theorem sum_map_add_nat (l : List ℕ) (f g : ℕ → ℕ) :
    (l.map (fun i => f i + g i)).sum = (l.map f).sum + (l.map g).sum := by
  induction l with
  | nil => rfl
  | cons a t ih => simp [ih]; omega

theorem range_indicator_sum (k : ℕ) :
    ∀ n : ℕ, ((List.range n).map (fun i => if k = 97 + i then 1 else 0)).sum
      = if 97 ≤ k ∧ k < 97 + n then 1 else 0
  | 0 => by
    rw [if_neg (by omega)]
    simp
  | n + 1 => by
    rw [List.range_succ, List.map_append, List.sum_append,
      range_indicator_sum k n]
    simp only [List.map_cons, List.map_nil, List.sum_cons, List.sum_nil]
    split_ifs <;> omega

theorem counts_partition : ∀ cs : List Char,
    ((List.range 26).map
      (fun i => (cs.filter (fun c => c.toNat = 97 + i)).length)).sum
      = (cs.filter (fun c => 97 ≤ c.toNat && c.toNat ≤ 122)).length
  | [] => by simp
  | c :: cs => by
    have hstep : ∀ i : ℕ,
        ((c :: cs).filter (fun x => x.toNat = 97 + i)).length
          = (if c.toNat = 97 + i then 1 else 0)
            + (cs.filter (fun x => x.toNat = 97 + i)).length := by
      intro i
      by_cases h : c.toNat = 97 + i <;> simp [List.filter_cons, h] <;> omega
    rw [List.map_congr_left (fun i _ => hstep i), sum_map_add_nat,
      range_indicator_sum c.toNat 26, counts_partition cs, List.filter_cons]
    by_cases h : (97 ≤ c.toNat && c.toNat ≤ 122) = true
    · have h' : 97 ≤ c.toNat ∧ c.toNat < 97 + 26 := by
        rw [Bool.and_eq_true, decide_eq_true_eq, decide_eq_true_eq] at h
        omega
      rw [if_pos h, if_pos h']
      simp [Nat.add_comm]
    · have h' : ¬(97 ≤ c.toNat ∧ c.toNat < 97 + 26) := by
        rw [Bool.and_eq_true, decide_eq_true_eq, decide_eq_true_eq] at h
        omega
      rw [if_neg h, if_neg h']
      simp
/-! ## Evaluation bridges for the signature vector -/

theorem foldl_add_eq_sum (l : List ℚ) (a : ℚ) : l.foldl (· + ·) a = a + l.sum := by
  induction l generalizing a with
  | nil => simp
  | cons x t ih => simp [List.sum_cons, ih, add_assoc]

theorem cast_counts_sum (t : String) :
    ((List.range 26).map (fun i => (letterCount t i : ℚ))).sum
      = (letterTotal t : ℚ) := by
  rw [show (fun i => ((letterCount t i : ℕ) : ℚ))
      = (fun n : ℕ => (n : ℚ)) ∘ letterCount t from rfl, ← List.map_map,
    ← Nat.cast_list_sum]
  exact_mod_cast congrArg (fun n : ℕ => (n : ℚ))
    (counts_partition (t.toList.map Char.toLower))

theorem letterCount_def (t : String) (i : ℕ) :
    ((t.toList.map Char.toLower).filter (fun c => c.toNat = 97 + i)).length
      = letterCount t i := rfl

theorem createSimpleEmbedding_eq (t : String) :
    createSimpleEmbedding t =
      if letterTotal t = 0 then
        (List.range 26).map (fun i => (letterCount t i : ℚ))
      else
        (List.range 26).map
          (fun i => (letterCount t i : ℚ) / (letterTotal t : ℚ)) := by
  unfold createSimpleEmbedding
  simp only [letterCount_def]
  rw [foldl_add_eq_sum, zero_add, cast_counts_sum]
  by_cases h : letterTotal t = 0
  · rw [if_neg (by simp [h]), if_pos h]
  · have hpos : (0 : ℚ) < (letterTotal t : ℚ) := by
      exact_mod_cast Nat.pos_of_ne_zero h
    rw [if_pos hpos, if_neg h, List.map_map]
    rfl

theorem length_createSimpleEmbedding (t : String) :
    (createSimpleEmbedding t).length = 26 := by
  rw [createSimpleEmbedding_eq]
  split_ifs <;> simp

theorem letterCount_le_letterTotal (t : String) (i : ℕ) (hi : i < 26) :
    letterCount t i ≤ letterTotal t := by
  unfold letterCount letterTotal
  rw [← List.countP_eq_length_filter, ← List.countP_eq_length_filter]
  apply List.countP_mono_left
  intro c _ h
  rw [decide_eq_true_eq] at h
  simp only [Bool.and_eq_true, decide_eq_true_eq]
  omega

theorem sum_map_div (l : List ℚ) (d : ℚ) :
    (l.map (fun c => c / d)).sum = l.sum / d := by
  induction l with
  | nil => simp
  | cons a t ih => simp [ih, add_div]

theorem createSimpleEmbedding_all_zero (t : String) (h : letterTotal t = 0) :
    createSimpleEmbedding t = List.replicate 26 (0 : ℚ) := by
  rw [createSimpleEmbedding_eq, if_pos h]
  have h0 : ∀ i ∈ List.range 26, (letterCount t i : ℚ) = (fun _ : ℕ => (0 : ℚ)) i := by
    intro i hi
    have := letterCount_le_letterTotal t i (List.mem_range.mp hi)
    rw [h] at this
    simp [Nat.le_zero.mp this]
  rw [List.map_congr_left h0, List.map_const', List.length_range]

theorem dotP_replicate_zero_left :
    ∀ (n : ℕ) (l : List ℚ), dotP (List.replicate n 0) l = 0
  | 0, _ => rfl
  | _ + 1, [] => rfl
  | n + 1, b :: bs => by
    rw [List.replicate_succ]
    show (0 : ℚ) * b + dotP (List.replicate n 0) bs = 0
    rw [dotP_replicate_zero_left n bs]
    ring

/-! ## Evaluation lemmas for the engine pipeline -/

theorem mapM_ok_map {α β : Type} (f : α → Except String β) (g : α → β) :
    ∀ l : List α, (∀ a ∈ l, f a = .ok (g a)) → l.mapM f = .ok (l.map g)
  | [], _ => rfl
  | a :: t, h => by
    rw [List.mapM_cons, h a (List.mem_cons_self a t),
      mapM_ok_map f g t (fun x hx => h x (List.mem_cons_of_mem a hx))]
    rfl

theorem inferStep_ok (sqrtQ : ℚ → ℚ) (chunk other : EnhancedKnowledgeChunk)
    (acc : List String) (hc : chunk.embedding.length = 26)
    (ho : other.embedding.length = 26) :
    inferStep sqrtQ chunk acc other
      = .ok (acc ++ (inferTest sqrtQ chunk other).toList) := by
  unfold inferStep inferTest
  by_cases hid : chunk.id = other.id
  · rw [if_pos hid, if_pos hid]
    show Except.ok acc = Except.ok (acc ++ Option.toList none)
    simp
  · rw [if_neg hid, if_neg hid]
    unfold cosineSimilarity
    rw [if_neg (by simp [hc, ho])]
    show (if 2 ≤ overlapCount chunk other
        ∨ (cosineCore sqrtQ chunk.embedding other.embedding).gtQ (0.6 : ℚ)
          = true
      then (pure (acc ++ [other.id]) : Except String (List String))
      else pure acc) = _
    by_cases hcond : 2 ≤ overlapCount chunk other
        ∨ (cosineCore sqrtQ chunk.embedding other.embedding).gtQ (0.6 : ℚ)
          = true
    · rw [if_pos hcond, if_pos hcond]
      rfl
    · rw [if_neg hcond, if_neg hcond]
      show Except.ok acc = Except.ok (acc ++ Option.toList none)
      simp

theorem foldlM_inferStep_ok (sqrtQ : ℚ → ℚ) (chunk : EnhancedKnowledgeChunk)
    (hc : chunk.embedding.length = 26) :
    ∀ (others : List EnhancedKnowledgeChunk),
      (∀ c ∈ others, c.embedding.length = 26) →
      ∀ acc : List String,
        others.foldlM (inferStep sqrtQ chunk) acc
          = .ok (acc ++ others.filterMap (inferTest sqrtQ chunk))
  | [], _, acc => by
    simp only [List.foldlM_nil, List.filterMap_nil, List.append_nil]
    rfl
  | o :: os, hlen, acc => by
    rw [List.foldlM_cons, inferStep_ok sqrtQ chunk o acc hc
      (hlen o (List.mem_cons_self o os))]
    show os.foldlM (inferStep sqrtQ chunk)
        (acc ++ (inferTest sqrtQ chunk o).toList) = _
    rw [foldlM_inferStep_ok sqrtQ chunk hc os
      (fun c hx => hlen c (List.mem_cons_of_mem o hx)) _,
      List.filterMap_cons]
    cases inferTest sqrtQ chunk o <;> simp

theorem inferOne_ok (sqrtQ : ℚ → ℚ) (chunks : List EnhancedKnowledgeChunk)
    (chunk : EnhancedKnowledgeChunk)
    (hlen : ∀ c ∈ chunks, c.embedding.length = 26)
    (hc : chunk.embedding.length = 26) :
    inferOne sqrtQ chunks chunk = .ok (inferOnePure sqrtQ chunks chunk) := by
  unfold inferOne inferOnePure
  cases hrel : chunk.relatedChunks with
  | none =>
    rw [foldlM_inferStep_ok sqrtQ chunk hc chunks hlen []]
    rfl
  | some l =>
    cases l with
    | nil =>
      rw [foldlM_inferStep_ok sqrtQ chunk hc chunks hlen []]
      rfl
    | cons x xs => rfl

theorem inferChunkRelationships_ok (sqrtQ : ℚ → ℚ)
    (chunks : List EnhancedKnowledgeChunk)
    (hlen : ∀ c ∈ chunks, c.embedding.length = 26) :
    inferChunkRelationships sqrtQ chunks
      = .ok (chunks.map (inferOnePure sqrtQ chunks)) :=
  mapM_ok_map _ _ chunks (fun c hcm => inferOne_ok sqrtQ chunks c hlen (hlen c hcm))

theorem inferOnePure_fields (sqrtQ : ℚ → ℚ)
    (chunks : List EnhancedKnowledgeChunk) (chunk : EnhancedKnowledgeChunk) :
    (inferOnePure sqrtQ chunks chunk).embedding = chunk.embedding ∧
    (inferOnePure sqrtQ chunks chunk).id = chunk.id ∧
    (inferOnePure sqrtQ chunks chunk).title = chunk.title ∧
    (inferOnePure sqrtQ chunks chunk).content = chunk.content ∧
    (inferOnePure sqrtQ chunks chunk).keywords = chunk.keywords ∧
    (inferOnePure sqrtQ chunks chunk).autoKeywords = chunk.autoKeywords := by
  unfold inferOnePure
  cases hrel : chunk.relatedChunks with
  | none => exact ⟨rfl, rfl, rfl, rfl, rfl, rfl⟩
  | some l =>
    cases l with
    | nil => exact ⟨rfl, rfl, rfl, rfl, rfl, rfl⟩
    | cons x xs => exact ⟨rfl, rfl, rfl, rfl, rfl, rfl⟩

theorem enhanced_wf (cs : List KnowledgeChunk) :
    ∀ c ∈ cs.map enhanceChunk, c.embedding.length = 26 := by
  intro c hc
  obtain ⟨k, _, rfl⟩ := List.mem_map.mp hc
  exact length_createSimpleEmbedding _

theorem initialize_fresh (sqrtQ : ℚ → ℚ) (cs : List KnowledgeChunk)
    (p : String) :
    RAGService.initialize sqrtQ RAGService.new cs p
      = .ok { chunks := (cs.map enhanceChunk).map
                (inferOnePure sqrtQ (cs.map enhanceChunk)),
              isInitialized := true,
              systemPrompt := p,
              chunkMap := ((cs.map enhanceChunk).map
                (inferOnePure sqrtQ (cs.map enhanceChunk))).foldl
                  (fun m e => mapSet m e.id e) [] } := by
  unfold RAGService.initialize
  rw [if_neg (by simp [RAGService.new]), if_neg (by simp [RAGService.new])]
  show (inferChunkRelationships sqrtQ (cs.map enhanceChunk)).bind _ = _
  rw [inferChunkRelationships_ok sqrtQ (cs.map enhanceChunk) (enhanced_wf cs)]
  rfl

theorem mapSet_id_inv (m : List (String × EnhancedKnowledgeChunk))
    (e : EnhancedKnowledgeChunk) (h : ∀ kv ∈ m, kv.2.id = kv.1) :
    ∀ kv ∈ mapSet m e.id e, kv.2.id = kv.1 := by
  intro kv hkv
  unfold mapSet at hkv
  split at hkv
  · obtain ⟨p, hp, hkv'⟩ := List.mem_map.mp hkv
    by_cases hpk : p.1 = e.id
    · rw [if_pos hpk] at hkv'
      subst hkv'
      rfl
    · rw [if_neg hpk] at hkv'
      subst hkv'
      exact h p hp
  · rcases List.mem_append.mp hkv with hm | hs
    · exact h kv hm
    · rw [List.mem_singleton.mp hs]

theorem foldl_mapSet_id_inv :
    ∀ (es : List EnhancedKnowledgeChunk)
      (m : List (String × EnhancedKnowledgeChunk)),
      (∀ kv ∈ m, kv.2.id = kv.1) →
      ∀ kv ∈ es.foldl (fun m e => mapSet m e.id e) m, kv.2.id = kv.1
  | [], _, h => h
  | e :: es, m, h =>
    foldl_mapSet_id_inv es (mapSet m e.id e) (mapSet_id_inv m e h)

theorem mapGet_id (m : List (String × EnhancedKnowledgeChunk)) (k : String)
    (v : EnhancedKnowledgeChunk) (h : ∀ kv ∈ m, kv.2.id = kv.1)
    (hget : mapGet m k = some v) : v.id = k := by
  unfold mapGet at hget
  cases hf : m.find? (fun p => p.1 = k) with
  | none =>
    rw [hf] at hget
    cases hget
  | some p =>
    rw [hf] at hget
    have hpk : p.1 = k := by
      have := List.find?_some hf
      rwa [decide_eq_true_eq] at this
    have hpm : p ∈ m := List.mem_of_find?_eq_some hf
    have : p.2 = v := by
      injection hget
    rw [← this, h p hpm, hpk]

theorem initialize_fresh_inv (sqrtQ : ℚ → ℚ) (cs : List KnowledgeChunk)
    (p : String) (svc : RAGService)
    (h : RAGService.initialize sqrtQ RAGService.new cs p = .ok svc) :
    svc.isInitialized = true ∧
    (∀ c ∈ svc.chunks, c.embedding.length = 26) ∧
    (∀ kv ∈ svc.chunkMap, kv.2.id = kv.1) := by
  rw [initialize_fresh] at h
  injection h with h
  subst h
  refine ⟨rfl, ?_, ?_⟩
  · intro c hc
    obtain ⟨e, he, rfl⟩ := List.mem_map.mp hc
    rw [(inferOnePure_fields sqrtQ _ e).1]
    exact enhanced_wf cs e he
  · exact foldl_mapSet_id_inv _ [] (by simp)

theorem candidates_sub (svc : RAGService) :
    ∀ c ∈ svc.candidates, c ∈ svc.chunks := by
  intro c hc
  unfold RAGService.candidates at hc
  split at hc
  · exact List.mem_of_mem_take hc
  · exact hc

theorem candidates_eq_take_min (svc : RAGService) :
    svc.candidates = svc.chunks.take (min svc.chunks.length 50) := by
  unfold RAGService.candidates
  by_cases h : 50 < svc.chunks.length
  · rw [if_pos h, Nat.min_eq_right (le_of_lt h)]
  · rw [if_neg h, Nat.min_eq_left (Nat.le_of_not_lt h), List.take_length]

theorem scoredCandidates_ok (sqrtQ : ℚ → ℚ) (svc : RAGService)
    (query conversationHistory : String)
    (hwf : ∀ c ∈ svc.chunks, c.embedding.length = 26) :
    svc.scoredCandidates sqrtQ query conversationHistory
      = .ok (svc.candidates.map (fun chunk =>
          boostItem (query ++ " " ++ conversationHistory)
            (extractKeywords (query ++ " " ++ conversationHistory))
            (chunk, cosineCore sqrtQ
              (createSimpleEmbedding (query ++ " " ++ conversationHistory))
              chunk.embedding))) := by
  unfold RAGService.scoredCandidates
  rw [mapM_ok_map _ (fun chunk => (chunk, cosineCore sqrtQ
      (createSimpleEmbedding (query ++ " " ++ conversationHistory))
      chunk.embedding)) _ ?_]
  · show Except.ok ((svc.candidates.map _).map _) = _
    rw [List.map_map]
    rfl
  · intro c hc
    have hcl : c.embedding.length = 26 := hwf c (candidates_sub svc c hc)
    unfold cosineSimilarity
    rw [if_neg (by simp [length_createSimpleEmbedding, hcl])]
    rfl

theorem getRelevantContext_ok (sqrtQ : ℚ → ℚ) (svc : RAGService)
    (query conversationHistory : String) (maxChunks : ℕ)
    (hflag : svc.isInitialized = true)
    (boosted : List (EnhancedKnowledgeChunk × JsNum))
    (hb : svc.scoredCandidates sqrtQ query conversationHistory = .ok boosted) :
    svc.getRelevantContext sqrtQ query conversationHistory maxChunks
      = .ok (renderFromBoosted svc boosted maxChunks) := by
  unfold RAGService.getRelevantContext
  rw [if_neg (by simp [hflag]), hb]
  rfl

/-! ## Claims about the engine lifecycle and accessors -/

/-- C10: in the uninitialized state (a freshly constructed service),
`getSystemPrompt` returns the empty string and `getChunkIds` the empty
sequence; both are total operations (they perform no readiness check),
and only `getRelevantContext` rejects the uninitialized state. -/
theorem uninitialized_accessor_values :
    RAGService.new.getSystemPrompt = "" ∧
    RAGService.new.getChunkIds = [] ∧
    ∀ (sqrtQ : ℚ → ℚ) (query conversationHistory : String) (maxChunks : ℕ),
      RAGService.new.getRelevantContext sqrtQ query conversationHistory
        maxChunks = .error "RAG Service not initialized" :=
  ⟨rfl, rfl, fun _ _ _ _ => rfl⟩

/-- C9: once the ready flag is set, `initialize` returns immediately
and the whole state — corpus, lookup map, system prompt and flag — is
unchanged, whatever arguments it is given. -/
theorem initialize_noop_when_ready (sqrtQ : ℚ → ℚ) (svc : RAGService)
    (knowledgeChunks : List KnowledgeChunk) (systemPrompt : String)
    (h : svc.isInitialized = true) :
    svc.initialize sqrtQ knowledgeChunks systemPrompt = .ok svc := by
  unfold RAGService.initialize
  rw [h]
  simp

theorem initialize_noop_when_ready_witness :
    (⟨[], true, "p", []⟩ : RAGService).isInitialized = true ∧
    RAGService.initialize (fun q => q) ⟨[], true, "p", []⟩
      [⟨"x", "T", "C", [], none⟩] "other" = .ok ⟨[], true, "p", []⟩ :=
  ⟨rfl, initialize_noop_when_ready (fun q => q) ⟨[], true, "p", []⟩
    [⟨"x", "T", "C", [], none⟩] "other" rfl⟩

/-- C8: `getRelevantContext` performs no writes to engine state: the
corpus, the identifier lookup map, the system prompt and the ready
flag are identical before and after the call.  (The source method
assigns no field of `this`; the state-passing embedding records
that.) -/
theorem getRelevantContext_frame (sqrtQ : ℚ → ℚ) (svc : RAGService)
    (query conversationHistory : String) (maxChunks : ℕ) :
    (svc.getRelevantContextS sqrtQ query conversationHistory
        maxChunks).1.chunks = svc.chunks ∧
    (svc.getRelevantContextS sqrtQ query conversationHistory
        maxChunks).1.chunkMap = svc.chunkMap ∧
    (svc.getRelevantContextS sqrtQ query conversationHistory
        maxChunks).1.systemPrompt = svc.systemPrompt ∧
    (svc.getRelevantContextS sqrtQ query conversationHistory
        maxChunks).1.isInitialized = svc.isInitialized :=
  ⟨rfl, rfl, rfl, rfl⟩

/-- C4 (divergence between code and spec): on two zero-norm signature
vectors — here the signatures of letterless texts — `cosineSimilarity`
evaluates `0 / (sqrt 0 * sqrt 0)`, which is `0/0 = NaN`, not the
score 0 the specification requires. -/
theorem cosineSimilarity_zero_norm_is_nan :
    cosineSimilarity (fun q => q) (createSimpleEmbedding "123")
        (createSimpleEmbedding "123") = .ok JsNum.nan ∧
    cosineSimilarity (fun q => q) (createSimpleEmbedding "123")
        (createSimpleEmbedding "123") ≠ .ok (JsNum.num 0) := by
  have hz : createSimpleEmbedding "123" = List.replicate 26 (0 : ℚ) :=
    createSimpleEmbedding_all_zero "123" (by decide)
  rw [hz]
  unfold cosineSimilarity cosineCore
  rw [if_neg (by simp), dotP_replicate_zero_left]
  norm_num [JsNum.jsDiv]
  intro h
  exact JsNum.noConfusion h


theorem createSimpleEmbedding_getD (t : String) (i : ℕ) (hi : i < 26) :
    (createSimpleEmbedding t).getD i 0
      = (letterCount t i : ℚ) / (letterTotal t : ℚ) := by
  rw [createSimpleEmbedding_eq]
  by_cases h : letterTotal t = 0
  · rw [if_pos h, List.getD_eq_getElem?_getD, List.getElem?_map,
      List.getElem?_range hi]
    have hc : letterCount t i = 0 := by
      have := letterCount_le_letterTotal t i hi
      omega
    simp [hc, h]
  · rw [if_neg h, List.getD_eq_getElem?_getD, List.getElem?_map,
      List.getElem?_range hi]
    simp

theorem dotP_zero_of_products (l1 l2 : List ℚ)
    (h : ∀ i, l1.getD i 0 * l2.getD i 0 = 0) : dotP l1 l2 = 0 :=
  match l1, l2, h with
  | [], _, _ => rfl
  | _ :: _, [], _ => rfl
  | a :: as, b :: bs, h => by
    show a * b + dotP as bs = 0
    rw [dotP_zero_of_products as bs (fun i => by simpa using h (i + 1)),
      show a * b = 0 from by simpa using h 0]
    ring

theorem dotP_disjoint_zero (tA tB : String)
    (h : ∀ i < 26, letterCount tA i = 0 ∨ letterCount tB i = 0) :
    dotP (createSimpleEmbedding tA) (createSimpleEmbedding tB) = 0 := by
  apply dotP_zero_of_products
  intro i
  by_cases hi : i < 26
  · rw [createSimpleEmbedding_getD tA i hi, createSimpleEmbedding_getD tB i hi]
    rcases h i hi with h0 | h0 <;> rw [h0] <;> simp
  · rw [List.getD_eq_default _ _ (by rw [length_createSimpleEmbedding]; omega)]
    ring

theorem cosineCore_one_disjoint (tA tB : String)
    (h : ∀ i < 26, letterCount tA i = 0 ∨ letterCount tB i = 0) :
    cosineCore (fun _ => (1 : ℚ)) (createSimpleEmbedding tA)
      (createSimpleEmbedding tB) = .num 0 := by
  unfold cosineCore JsNum.jsDiv
  rw [dotP_disjoint_zero tA tB h, if_neg (by norm_num)]
  norm_num

/-- C6: for every text, the signature is a 26-dimensional vector whose
`i`-th entry is the count of occurrences of the `i`-th lowercase Latin
letter divided by the total letter count; the entries sum to 1 whenever
the text contains at least one letter, and the vector is all-zero when
the text contains no letters.  (With no letters the quotient is the
degenerate `0 / 0`, which Lean's field convention reads as 0, matching
the all-zero entries.) -/
theorem createSimpleEmbedding_normalized (t : String) :
    (createSimpleEmbedding t).length = 26 ∧
    (∀ i, i < 26 → (createSimpleEmbedding t).getD i 0
      = (letterCount t i : ℚ) / (letterTotal t : ℚ)) ∧
    (letterTotal t ≠ 0 → (createSimpleEmbedding t).sum = 1) ∧
    (letterTotal t = 0 → createSimpleEmbedding t = List.replicate 26 (0 : ℚ)) := by
  refine ⟨length_createSimpleEmbedding t, fun i hi =>
    createSimpleEmbedding_getD t i hi, ?_, createSimpleEmbedding_all_zero t⟩
  · intro h
    rw [createSimpleEmbedding_eq, if_neg h]
    rw [show (fun i => (letterCount t i : ℚ) / (letterTotal t : ℚ))
        = (fun c : ℚ => c / (letterTotal t : ℚ))
          ∘ (fun i => (letterCount t i : ℚ)) from rfl,
      ← List.map_map, sum_map_div, cast_counts_sum,
      div_self (by exact_mod_cast h)]

theorem createSimpleEmbedding_normalized_witness :
    (createSimpleEmbedding "ab").getD 0 0
        = (letterCount "ab" 0 : ℚ) / (letterTotal "ab" : ℚ) ∧
    (createSimpleEmbedding "ab").sum = 1 :=
  ⟨(createSimpleEmbedding_normalized "ab").2.1 0 (by decide),
   (createSimpleEmbedding_normalized "ab").2.2.1 (by decide)⟩

/-! ## The keyword extractor (claim C7) -/

theorem any_map_fst (m : List (String × ℕ)) (p : String → Bool) :
    (m.map Prod.fst).any p = m.any (fun q => p q.1) := by
  induction m with
  | nil => rfl
  | cons a t ih => simp [ih]

theorem any_key_iff (m : List (String × ℕ)) (v : String) :
    m.any (fun p => p.1 = v) = true ↔ v ∈ m.map Prod.fst := by
  rw [List.any_eq_true]
  constructor
  · rintro ⟨p, hp, hpv⟩
    rw [decide_eq_true_eq] at hpv
    exact List.mem_map.mpr ⟨p, hp, hpv⟩
  · rintro h
    obtain ⟨p, hp, hpv⟩ := List.mem_map.mp h
    exact ⟨p, hp, decide_eq_true hpv⟩

theorem bumpWord_keys (m : List (String × ℕ)) (w : String) :
    (bumpWord m w).map Prod.fst =
      if m.any (fun p => p.1 = w) then m.map Prod.fst
      else m.map Prod.fst ++ [w] := by
  unfold bumpWord
  by_cases h : m.any (fun p => p.1 = w) = true
  · rw [if_pos h, if_pos h, List.map_map]
    apply List.map_congr_left
    intro p _
    by_cases hp : p.1 = w <;> simp [hp]
  · rw [if_neg h, if_neg h]
    simp

theorem keys_foldl_bumpWord :
    ∀ (ws : List String) (m : List (String × ℕ)) (k : String),
      k ∈ (ws.foldl bumpWord m).map Prod.fst → k ∈ m.map Prod.fst ∨ k ∈ ws
  | [], _, _, h => Or.inl h
  | w :: ws, m, k, h => by
    rcases keys_foldl_bumpWord ws (bumpWord m w) k h with h' | h'
    · rw [bumpWord_keys] at h'
      split at h'
      · exact Or.inl h'
      · rcases List.mem_append.mp h' with h'' | h''
        · exact Or.inl h''
        · exact Or.inr (by simp [List.mem_singleton.mp h''])
    · exact Or.inr (List.mem_cons_of_mem w h')

theorem bumpWord_counts (m : List (String × ℕ)) (pre : List String) (w : String)
    (h1 : ∀ q ∈ m, q.2 = pre.count q.1)
    (h2 : ∀ v ∈ pre, m.any (fun p => p.1 = v) = true) :
    ∀ q ∈ bumpWord m w, q.2 = (pre ++ [w]).count q.1 := by
  intro q hq
  unfold bumpWord at hq
  split at hq
  case isTrue h =>
    obtain ⟨p, hp, hq'⟩ := List.mem_map.mp hq
    by_cases hpw : p.1 = w
    · rw [if_pos hpw] at hq'
      subst hq'
      show p.2 + 1 = (pre ++ [w]).count p.1
      rw [h1 p hp, hpw]
      simp
    · rw [if_neg hpw] at hq'
      subst hq'
      rw [h1 p hp]
      simp [hpw]
  case isFalse h =>
    rcases List.mem_append.mp hq with hm | hw
    · have hqw : q.1 ≠ w := by
        intro hqw
        exact h (List.any_eq_true.mpr ⟨q, hm, by simp [hqw]⟩)
      rw [h1 q hm]
      simp [hqw]
    · rw [List.mem_singleton.mp hw]
      have hwpre : w ∉ pre := fun hwp => h (h2 w hwp)
      simp [List.count_eq_zero.mpr hwpre]

theorem bumpWord_covers (m : List (String × ℕ)) (pre : List String) (w : String)
    (h2 : ∀ v ∈ pre, m.any (fun p => p.1 = v) = true) :
    ∀ v ∈ pre ++ [w], (bumpWord m w).any (fun p => p.1 = v) = true := by
  intro v hv
  rw [any_key_iff, bumpWord_keys]
  rcases List.mem_append.mp hv with hvp | hvw
  · have hm : v ∈ m.map Prod.fst := (any_key_iff m v).mp (h2 v hvp)
    split
    · exact hm
    · exact List.mem_append_left _ hm
  · rw [List.mem_singleton.mp hvw]
    split
    case isTrue h => exact (any_key_iff m w).mp h
    case isFalse h => exact List.mem_append_right _ (List.mem_singleton_self w)

theorem foldl_bumpWord_counts :
    ∀ (ws pre : List String) (m : List (String × ℕ)),
      (∀ q ∈ m, q.2 = pre.count q.1) →
      (∀ v ∈ pre, m.any (fun p => p.1 = v) = true) →
      ∀ q ∈ ws.foldl bumpWord m, q.2 = (pre ++ ws).count q.1
  | [], pre, m, h1, _, q, hq => by simpa using h1 q hq
  | w :: ws, pre, m, h1, h2, q, hq => by
    have := foldl_bumpWord_counts ws (pre ++ [w]) (bumpWord m w)
      (bumpWord_counts m pre w h1 h2) (bumpWord_covers m pre w h2) q hq
    simpa [List.append_assoc] using this

theorem wordCounts_count (ws : List String) :
    ∀ q ∈ wordCounts ws, q.2 = ws.count q.1 := by
  intro q hq
  simpa using foldl_bumpWord_counts ws [] [] (by simp) (by simp) q hq

theorem wordCounts_keys_mem (ws : List String) :
    ∀ q ∈ wordCounts ws, q.1 ∈ ws := by
  intro q hq
  rcases keys_foldl_bumpWord ws [] q.1 (List.mem_map.mpr ⟨q, hq, rfl⟩) with h | h
  · simp at h
  · exact h

theorem bumpWord_keys_nodup (m : List (String × ℕ)) (w : String)
    (h : (m.map Prod.fst).Nodup) : ((bumpWord m w).map Prod.fst).Nodup := by
  rw [bumpWord_keys]
  split
  case isTrue => exact h
  case isFalse hc =>
    have hw : w ∉ m.map Prod.fst := fun hmem => hc ((any_key_iff m w).mpr hmem)
    rw [List.nodup_append]
    exact ⟨h, List.nodup_singleton w, by simpa [List.disjoint_singleton] using hw⟩

theorem wordCounts_keys_nodup (ws : List String) :
    ((wordCounts ws).map Prod.fst).Nodup := by
  suffices h : ∀ (ws : List String) (m : List (String × ℕ)),
      (m.map Prod.fst).Nodup → ((ws.foldl bumpWord m).map Prod.fst).Nodup by
    exact h ws [] (by simp)
  intro ws
  induction ws with
  | nil => exact fun _ h => h
  | cons w ws ih => exact fun m h => ih (bumpWord m w) (bumpWord_keys_nodup m w h)

theorem wordCounts_keys_firstOccur (ws : List String) :
    (wordCounts ws).map Prod.fst = firstOccur ws := by
  suffices h : ∀ (ws : List String) (m : List (String × ℕ)) (acc : List String),
      m.map Prod.fst = acc →
      (ws.foldl bumpWord m).map Prod.fst
        = ws.foldl
          (fun acc w => if acc.any (fun v => v = w) then acc else acc ++ [w])
          acc by
    exact h ws [] [] rfl
  intro ws
  induction ws with
  | nil => exact fun _ _ h => h
  | cons w ws ih =>
    intro m acc h
    apply ih
    subst h
    rw [bumpWord_keys]
    simp only [any_map_fst]

theorem countLe_total : ∀ a b : String × ℕ, countLe a b || countLe b a := by
  intro a b
  unfold countLe
  rcases Nat.le_total b.2 a.2 with h | h <;> simp [h]

theorem countLe_trans : ∀ a b c : String × ℕ,
    countLe a b = true → countLe b c = true → countLe a c = true := by
  intro a b c h1 h2
  unfold countLe at *
  rw [decide_eq_true_eq] at *
  omega

/-- C7: keyword extraction returns at most 10 keywords; every returned
keyword has length above 2 and is not in the stop-word set; the
frequency map pairs each distinct token (listed in first-encounter
order) with its exact frequency in the token stream; and the returned
keywords are the first 10 words of the unique ranking of the frequency
entries by strictly descending count with ties broken by
first-encounter position.  Determinism is immediate from the model:
the extractor is a pure function of the input text. -/
theorem extractKeywords_spec (t : String) :
    (extractKeywords t).length ≤ 10 ∧
    (∀ w ∈ extractKeywords t, 2 < w.length ∧ w ∉ stopWords) ∧
    (∀ p ∈ wordCounts (tokensOf t), p.2 = (tokensOf t).count p.1) ∧
    (wordCounts (tokensOf t)).map Prod.fst = firstOccur (tokensOf t) ∧
    ∃ ranked : List (ℕ × String × ℕ),
      ranked.Perm (wordCounts (tokensOf t)).enum ∧
      ranked.Pairwise (fun x y =>
        y.2.2 < x.2.2 ∨ (x.2.2 = y.2.2 ∧ x.1 < y.1)) ∧
      extractKeywords t = (ranked.take 10).map (fun x => x.2.1) := by
  refine ⟨?_, ?_, wordCounts_count _, wordCounts_keys_firstOccur _, ?_⟩
  · unfold extractKeywords
    rw [List.length_map, List.length_take]
    exact min_le_left _ _
  · intro w hw
    unfold extractKeywords at hw
    obtain ⟨p, hp, rfl⟩ := List.mem_map.mp hw
    have hp' : p ∈ wordCounts (tokensOf t) :=
      (mem_stableSort _ _ _).mp (List.mem_of_mem_take hp)
    have htok : p.1 ∈ tokensOf t := wordCounts_keys_mem _ p hp'
    unfold tokensOf at htok
    have hcond := (List.mem_filter.mp htok).2
    rw [Bool.and_eq_true, decide_eq_true_eq, Bool.not_eq_true'] at hcond
    refine ⟨hcond.1, fun hmem => ?_⟩
    have : stopWords.contains p.1 = true := List.elem_iff.mpr hmem
    rw [hcond.2] at this
    exact Bool.false_ne_true this
  · refine ⟨stableSort (idxLe countLe) (wordCounts (tokensOf t)).enum,
      stableSort_perm _ _, ?_, ?_⟩
    · have hpw := stableSort_pairwise (idxLe countLe)
        (idxLe_total countLe countLe_total)
        (idxLe_trans countLe countLe_trans)
        (wordCounts (tokensOf t)).enum
      have hperm := stableSort_perm (idxLe countLe)
        (wordCounts (tokensOf t)).enum
      have hnodup : (stableSort (idxLe countLe)
          (wordCounts (tokensOf t)).enum).Pairwise (fun x y => x.1 ≠ y.1) := by
        have h1 : ((wordCounts (tokensOf t)).enum.map Prod.fst).Nodup := by
          rw [List.enum_map_fst]
          exact List.nodup_range _
        have h2 : ((stableSort (idxLe countLe)
            (wordCounts (tokensOf t)).enum).map Prod.fst).Nodup :=
          ((hperm.map Prod.fst).nodup_iff).mpr h1
        exact List.pairwise_map.mp h2
      refine (hpw.and hnodup).imp ?_
      rintro x y ⟨hxy, hne⟩
      unfold idxLe countLe at hxy
      rw [Bool.and_eq_true, decide_eq_true_eq, Bool.or_eq_true] at hxy
      obtain ⟨hle, hor⟩ := hxy
      rcases Nat.lt_or_ge y.2.2 x.2.2 with h | h
      · exact Or.inl h
      · have heq : x.2.2 = y.2.2 := Nat.le_antisymm h hle
        refine Or.inr ⟨heq, ?_⟩
        rcases hor with h' | h'
        · rw [Bool.not_eq_eq_eq_not, Bool.not_true, decide_eq_false_iff_not] at h'
          exact absurd (Nat.le_of_eq heq) h'
        · rw [decide_eq_true_eq] at h'
          omega
    · unfold extractKeywords
      rw [← stableSort_enum countLe, ← List.map_take, List.map_map]
      rfl

theorem extractKeywords_spec_witness :
    2 < ("wolf" : String).length ∧ ("wolf" : String) ∉ stopWords :=
  (extractKeywords_spec "wolf wolf cat").2.1 "wolf" (by decide)

/-- C5: calls in the uninitialized state fail with the
not-initialized error, and after any successful `initialize` from a
fresh engine, `getRelevantContext` succeeds for every query, history
and `maxChunks` — empty inputs and an empty corpus degrade to an
empty or low-relevance result rather than an error. -/
theorem getRelevantContext_failure_semantics (sqrtQ : ℚ → ℚ) :
    (∀ svc : RAGService, svc.isInitialized = false →
      ∀ (query conversationHistory : String) (maxChunks : ℕ),
        svc.getRelevantContext sqrtQ query conversationHistory maxChunks
          = .error "RAG Service not initialized") ∧
    (∀ (knowledgeChunks : List KnowledgeChunk) (systemPrompt : String)
      (svc : RAGService),
      RAGService.initialize sqrtQ RAGService.new knowledgeChunks systemPrompt = .ok svc →
      ∀ (query conversationHistory : String) (maxChunks : ℕ),
        ∃ out, svc.getRelevantContext sqrtQ query conversationHistory
          maxChunks = .ok out) := by
  constructor
  · intro svc h query conversationHistory maxChunks
    unfold RAGService.getRelevantContext
    rw [if_pos h]
  · intro knowledgeChunks systemPrompt svc hinit query conversationHistory
      maxChunks
    obtain ⟨hflag, hwf, _⟩ :=
      initialize_fresh_inv sqrtQ knowledgeChunks systemPrompt svc hinit
    exact ⟨_, getRelevantContext_ok sqrtQ svc query conversationHistory
      maxChunks hflag _
      (scoredCandidates_ok sqrtQ svc query conversationHistory hwf)⟩

theorem getRelevantContext_failure_semantics_witness :
    RAGService.new.getRelevantContext (fun q => q) "hi" "" 3
        = .error "RAG Service not initialized" ∧
    ∃ out, RAGService.getRelevantContext (fun q => q)
        ⟨[], true, "", []⟩ "hi" "" 3 = .ok out :=
  ⟨(getRelevantContext_failure_semantics (fun q => q)).1 RAGService.new rfl
      "hi" "" 3,
   (getRelevantContext_failure_semantics (fun q => q)).2 [] ""
      ⟨[], true, "", []⟩ (by rfl) "hi" "" 3⟩

/-- C2: for an initialized engine (any engine whose corpus carries the
extractor's fixed 26-dimensional signatures, as every engine built by
`initialize` does), the candidate pool is exactly the first
`min n 50` chunks of the corpus in insertion order, and each
candidate's ranking score is the cosine similarity of the
combined-query signature with the chunk's signature plus `0.15` per
curated keyword occurring case-insensitively in the combined query
plus `0.05` per auto-keyword occurring in the combined query's
extracted keyword list. -/
theorem scoredCandidates_spec (sqrtQ : ℚ → ℚ) (svc : RAGService)
    (hwf : ∀ c ∈ svc.chunks, c.embedding.length = 26)
    (query conversationHistory : String) :
    svc.candidates = svc.chunks.take (min svc.chunks.length 50) ∧
    svc.scoredCandidates sqrtQ query conversationHistory
      = .ok (svc.candidates.map (fun chunk =>
          (chunk,
            (cosineCore sqrtQ
              (createSimpleEmbedding (query ++ " " ++ conversationHistory))
              chunk.embedding).jsAddQ
              (((chunk.keywords.filter (fun keyword =>
                  hasSubstring
                    ((query ++ " " ++ conversationHistory).toList.map
                      Char.toLower)
                    (keyword.toList.map Char.toLower))).length : ℚ)
                  * (0.15 : ℚ)
                + ((chunk.autoKeywords.filter (fun keyword =>
                    (extractKeywords
                      (query ++ " " ++ conversationHistory)).contains
                      keyword)).length : ℚ) * (0.05 : ℚ))))) := by
  refine ⟨candidates_eq_take_min svc, ?_⟩
  rw [scoredCandidates_ok sqrtQ svc query conversationHistory hwf]
  rfl

theorem scoredCandidates_spec_witness :
    RAGService.candidates ⟨[], true, "", []⟩
        = List.take (min 0 50) [] ∧
    RAGService.scoredCandidates (fun q => q) ⟨[], true, "", []⟩ "hi" ""
        = .ok [] :=
  scoredCandidates_spec (fun q => q) ⟨[], true, "", []⟩
    (fun c hc => absurd hc (List.not_mem_nil c)) "hi" ""

theorem relatedChunks_update (c : EnhancedKnowledgeChunk)
    (r : Option (List String)) :
    ({ c with relatedChunks := r } : EnhancedKnowledgeChunk).relatedChunks
      = r := rfl

theorem inferOnePure_of_empty (sqrtQ : ℚ → ℚ)
    (chunks : List EnhancedKnowledgeChunk) (chunk : EnhancedKnowledgeChunk)
    (h : chunk.relatedChunks = none ∨ chunk.relatedChunks = some []) :
    inferOnePure sqrtQ chunks chunk
      = { chunk with
          relatedChunks := some (inferredIds sqrtQ chunks chunk) } := by
  unfold inferOnePure
  rcases h with h | h <;> rw [h]

theorem inferOnePure_of_curated (sqrtQ : ℚ → ℚ)
    (chunks : List EnhancedKnowledgeChunk) (chunk : EnhancedKnowledgeChunk)
    (x : String) (xs : List String) (h : chunk.relatedChunks = some (x :: xs)) :
    inferOnePure sqrtQ chunks chunk = chunk := by
  unfold inferOnePure
  rw [h]

theorem inferTest_self (sqrtQ : ℚ → ℚ) (chunk other : EnhancedKnowledgeChunk)
    (h : chunk.id = other.id) : inferTest sqrtQ chunk other = none := by
  unfold inferTest
  rw [if_pos h]

theorem inferTest_eq_ite (sqrtQ : ℚ → ℚ)
    (chunk other : EnhancedKnowledgeChunk) :
    inferTest sqrtQ chunk other =
      if chunk.id ≠ other.id ∧ (2 ≤ overlapCount chunk other
          ∨ (cosineCore sqrtQ chunk.embedding other.embedding).gtQ (0.6 : ℚ)
            = true)
        then some other.id else none := by
  unfold inferTest
  by_cases hid : chunk.id = other.id
  · rw [if_pos hid, if_neg (fun h => h.1 hid)]
  · rw [if_neg hid]
    by_cases hc : 2 ≤ overlapCount chunk other
        ∨ (cosineCore sqrtQ chunk.embedding other.embedding).gtQ (0.6 : ℚ)
          = true
    · rw [if_pos hc, if_pos ⟨hid, hc⟩]
    · rw [if_neg hc, if_neg (fun h => hc h.2)]

/-- C3 (amended): after initialization from a fresh engine, a chunk
whose curated related set is empty or absent has as its resolved
related set exactly the identifiers of the other chunks, in corpus
order, for which the number of entries of the concatenation of its
curated and auto keyword lists (counted with multiplicity) that occur
among the other chunk's curated or auto keywords is at least 2, or the
cosine similarity of the two signatures exceeds 0.6; and every chunk
with a non-empty curated related set keeps it unchanged.  (The claim's
set-intersection reading of the overlap is refuted by
`inferChunkRelationships_claim_counterexample`.) -/
theorem inferChunkRelationships_spec (sqrtQ : ℚ → ℚ)
    (cs : List KnowledgeChunk) (p : String) (svc : RAGService)
    (hinit : RAGService.initialize sqrtQ RAGService.new cs p = .ok svc) :
    svc.chunks = (cs.map enhanceChunk).map
      (inferOnePure sqrtQ (cs.map enhanceChunk)) ∧
    (∀ chunk : EnhancedKnowledgeChunk,
      chunk.relatedChunks = none ∨ chunk.relatedChunks = some [] →
      (inferOnePure sqrtQ (cs.map enhanceChunk) chunk).relatedChunks
        = some ((cs.map enhanceChunk).filterMap (fun other =>
            if chunk.id ≠ other.id ∧ (2 ≤ overlapCount chunk other
                ∨ (cosineCore sqrtQ chunk.embedding other.embedding).gtQ
                    (0.6 : ℚ) = true)
              then some other.id else none))) ∧
    (∀ (chunk : EnhancedKnowledgeChunk) (x : String) (xs : List String),
      chunk.relatedChunks = some (x :: xs) →
      inferOnePure sqrtQ (cs.map enhanceChunk) chunk = chunk) := by
  refine ⟨?_, ?_, ?_⟩
  · rw [initialize_fresh] at hinit
    injection hinit with h
    subst h
    rfl
  · intro chunk hrel
    rw [inferOnePure_of_empty sqrtQ _ chunk hrel, relatedChunks_update]
    show some (inferredIds sqrtQ _ chunk) = _
    rw [inferredIds,
      List.filterMap_congr (fun other _ => inferTest_eq_ite sqrtQ chunk other)]
  · intro chunk x xs h
    exact inferOnePure_of_curated sqrtQ _ chunk x xs h

theorem inferChunkRelationships_spec_witness :
    (inferOnePure (fun q => q)
        (([] : List KnowledgeChunk).map enhanceChunk)
        ⟨⟨"x", "t", "c", [], none⟩, [], []⟩).relatedChunks
      = some ((([] : List KnowledgeChunk).map enhanceChunk).filterMap
          (fun other =>
            if (⟨⟨"x", "t", "c", [], none⟩, [], []⟩
                  : EnhancedKnowledgeChunk).id ≠ other.id
                ∧ (2 ≤ overlapCount ⟨⟨"x", "t", "c", [], none⟩, [], []⟩ other
                  ∨ (cosineCore (fun q => q)
                      (⟨⟨"x", "t", "c", [], none⟩, [], []⟩
                        : EnhancedKnowledgeChunk).embedding
                      other.embedding).gtQ (0.6 : ℚ) = true)
              then some other.id else none)) :=
  (inferChunkRelationships_spec (fun q => q) [] "" ⟨[], true, "", []⟩
      (by rfl)).2.1 ⟨⟨"x", "t", "c", [], none⟩, [], []⟩ (Or.inl rfl)

/-- C3 counterexample: the code counts the keyword overlap over the
concatenated keyword lists with multiplicity.  Chunk "a" carries the
curated keyword "foo" and also auto-extracts "foo" from its content,
so the single shared keyword is counted twice and chunk "b" is added
to "a"'s resolved related set, although the claim's set-intersection
overlap is 1 < 2 and the similarity (0) does not exceed 0.6 — so the
resolved set is not "exactly" the chunks meeting the claim's
condition. -/
theorem inferChunkRelationships_claim_counterexample :
    (( RAGService.initialize (fun _ => (1 : ℚ)) RAGService.new
        [⟨"a", "", "foo foo foo", ["foo"], none⟩,
         ⟨"b", "", "bbb", ["foo"], none⟩] "").map
      (fun svc => svc.chunks.map (fun c => c.relatedChunks)))
      = .ok [some ["b"], some []] ∧
    specKeywordOverlap
        (enhanceChunk ⟨"a", "", "foo foo foo", ["foo"], none⟩)
        (enhanceChunk ⟨"b", "", "bbb", ["foo"], none⟩) = 1 ∧
    (cosineCore (fun _ => (1 : ℚ))
        (enhanceChunk ⟨"a", "", "foo foo foo", ["foo"], none⟩).embedding
        (enhanceChunk ⟨"b", "", "bbb", ["foo"], none⟩).embedding).gtQ
        (0.6 : ℚ) = false := by
  refine ⟨?_, by decide, ?_⟩
  · have hmap : ∀ (x : RAGService)
        (f : RAGService → List (Option (List String))),
        (Except.ok x : Except String RAGService).map f = .ok (f x) :=
      fun _ _ => rfl
    rw [initialize_fresh, hmap]
    have hAA : inferTest (fun _ => (1 : ℚ))
        (enhanceChunk ⟨"a", "", "foo foo foo", ["foo"], none⟩)
        (enhanceChunk ⟨"a", "", "foo foo foo", ["foo"], none⟩) = none :=
      inferTest_self _ _ _ rfl
    have hBB : inferTest (fun _ => (1 : ℚ))
        (enhanceChunk ⟨"b", "", "bbb", ["foo"], none⟩)
        (enhanceChunk ⟨"b", "", "bbb", ["foo"], none⟩) = none :=
      inferTest_self _ _ _ rfl
    have hAB : inferTest (fun _ => (1 : ℚ))
        (enhanceChunk ⟨"a", "", "foo foo foo", ["foo"], none⟩)
        (enhanceChunk ⟨"b", "", "bbb", ["foo"], none⟩) = some "b" := by
      rw [inferTest_eq_ite, if_pos ⟨by decide, Or.inl (by decide)⟩]
      rfl
    have hBA : inferTest (fun _ => (1 : ℚ))
        (enhanceChunk ⟨"b", "", "bbb", ["foo"], none⟩)
        (enhanceChunk ⟨"a", "", "foo foo foo", ["foo"], none⟩) = none := by
      rw [inferTest_eq_ite, if_neg]
      rintro ⟨hne, h | h⟩
      · exact absurd h (by decide)
      · rw [show (enhanceChunk ⟨"b", "", "bbb", ["foo"], none⟩).embedding
              = createSimpleEmbedding ("" ++ "\n\n" ++ "bbb") from rfl] at h
        rw [show (enhanceChunk
              ⟨"a", "", "foo foo foo", ["foo"], none⟩).embedding
              = createSimpleEmbedding ("" ++ "\n\n" ++ "foo foo foo")
            from rfl] at h
        rw [cosineCore_one_disjoint _ _ (by decide)] at h
        simp only [JsNum.gtQ, decide_eq_true_eq] at h
        exact absurd h (by norm_num)
    simp only [List.map_cons, List.map_nil]
    rw [inferOnePure_of_empty _ _ _ (Or.inl rfl),
      inferOnePure_of_empty _ _ _ (Or.inl rfl),
      relatedChunks_update, relatedChunks_update]
    simp only [inferredIds, List.filterMap_cons, List.filterMap_nil,
      hAA, hAB, hBA, hBB]
  · rw [show (enhanceChunk ⟨"a", "", "foo foo foo", ["foo"], none⟩).embedding
          = createSimpleEmbedding ("" ++ "\n\n" ++ "foo foo foo") from rfl]
    rw [show (enhanceChunk ⟨"b", "", "bbb", ["foo"], none⟩).embedding
          = createSimpleEmbedding ("" ++ "\n\n" ++ "bbb") from rfl]
    rw [cosineCore_one_disjoint _ _ (by decide)]
    simp only [JsNum.gtQ, decide_eq_false_iff_not]
    norm_num

/-! ## The ranking pipeline (claim C1) -/

theorem numScoreLe_total : ∀ x y : EnhancedKnowledgeChunk × JsNum,
    numScoreLe x y || numScoreLe y x := by
  intro x y
  unfold numScoreLe
  rcases le_total (qOf y.2) (qOf x.2) with h | h <;> simp [h]

theorem numScoreLe_trans : ∀ x y z : EnhancedKnowledgeChunk × JsNum,
    numScoreLe x y = true → numScoreLe y z = true → numScoreLe x z = true := by
  intro x y z h1 h2
  unfold numScoreLe at *
  rw [decide_eq_true_eq] at *
  exact le_trans h2 h1

theorem scoreLe_eq_numScoreLe (x y : EnhancedKnowledgeChunk × JsNum)
    (px py : ℚ) (hx : x.2 = .num px) (hy : y.2 = .num py) :
    scoreLe x y = numScoreLe x y := by
  unfold scoreLe numScoreLe
  rw [hx, hy]
  show decide (py - px ≤ 0) = decide (qOf (.num py) ≤ qOf (.num px))
  exact decide_eq_decide.mpr (by rw [sub_nonpos]; rfl)

theorem mem_setAdd (l : List String) (x k : String) (h : k ∈ setAdd l x) :
    k ∈ l ∨ k = x := by
  unfold setAdd at h
  split at h
  · exact Or.inl h
  · rcases List.mem_append.mp h with h | h
    · exact Or.inl h
    · exact Or.inr (List.mem_singleton.mp h)

theorem innerFold_not_mem (topChunkIds : List String) :
    ∀ (rids : List String) (acc : List String),
      (∀ k ∈ acc, topChunkIds.contains k = false) →
      ∀ k ∈ rids.foldl (fun acc2 relatedId =>
          if topChunkIds.contains relatedId then acc2
          else setAdd acc2 relatedId) acc,
        topChunkIds.contains k = false
  | [], _, h => h
  | r :: rs, acc, h => by
    simp only [List.foldl_cons]
    by_cases hr : topChunkIds.contains r = true
    · rw [if_pos hr]
      exact innerFold_not_mem topChunkIds rs acc h
    · rw [if_neg hr]
      refine innerFold_not_mem topChunkIds rs _ ?_
      intro k hk
      rcases mem_setAdd acc r k hk with h' | h'
      · exact h k h'
      · rw [h']
        exact Bool.eq_false_iff.mpr hr

theorem collectRelatedIds_not_mem (topChunks : List EnhancedKnowledgeChunk)
    (topChunkIds : List String) :
    ∀ k ∈ collectRelatedIds topChunks topChunkIds,
      topChunkIds.contains k = false := by
  unfold collectRelatedIds
  suffices h : ∀ (chunks : List EnhancedKnowledgeChunk) (acc : List String),
      (∀ k ∈ acc, topChunkIds.contains k = false) →
      ∀ k ∈ chunks.foldl (fun acc chunk =>
          (chunk.relatedChunks.getD []).foldl (fun acc2 relatedId =>
            if topChunkIds.contains relatedId then acc2
            else setAdd acc2 relatedId) acc) acc,
        topChunkIds.contains k = false by
    exact h topChunks [] (by simp)
  intro chunks
  induction chunks with
  | nil => exact fun _ h => h
  | cons c cs ih =>
    intro acc h
    simp only [List.foldl_cons]
    exact ih _ (innerFold_not_mem topChunkIds _ acc h)

/-- C1: for an initialized engine — ready flag set and an
identifier-keyed lookup map, the invariants `initialize` establishes
(`initialize_fresh_inv`) — any query and history whose boosted scores
are all finite numbers, and any `maxChunks ≥ 1`, the result consists
of the primary sections first: the top `maxChunks` scored candidates
in the unique order of strictly descending boosted score with ties
broken by candidate (corpus) position; followed by at most 2
secondary sections: the related identifiers collected from the primary
results excluding identifiers already primary, deduplicated in
first-encounter order, resolved through the lookup map with
unresolvable identifiers silently skipped, and capped at 2.  Secondary
sections carry the related-information annotation, no secondary
section's identifier is primary, and all sections are joined by the
fixed delimiter.  The finite-score hypothesis is the specification's
own premise: its scorer contract requires that `NaN` never enter
ranking. -/
theorem getRelevantContext_spec (sqrtQ : ℚ → ℚ) (svc : RAGService)
    (hflag : svc.isInitialized = true)
    (hmap : ∀ kv ∈ svc.chunkMap, kv.2.id = kv.1)
    (query conversationHistory : String) (maxChunks : ℕ)
    (hm : 1 ≤ maxChunks)
    (boosted : List (EnhancedKnowledgeChunk × JsNum))
    (hb : svc.scoredCandidates sqrtQ query conversationHistory = .ok boosted)
    (hnum : ∀ x ∈ boosted, ∃ r : ℚ, x.2 = JsNum.num r) :
    ∃ (ranked : List (ℕ × EnhancedKnowledgeChunk × JsNum))
      (primary secondary : List EnhancedKnowledgeChunk),
      ranked.Perm boosted.enum ∧
      ranked.Pairwise (fun x y => ∃ px py : ℚ,
        x.2.2 = JsNum.num px ∧ y.2.2 = JsNum.num py ∧
          (py < px ∨ (px = py ∧ x.1 < y.1))) ∧
      primary = (ranked.take maxChunks).map (fun x => x.2.1) ∧
      secondary = ((collectRelatedIds primary
          (primary.map (fun c => c.id))).filterMap
          (mapGet svc.chunkMap)).take 2 ∧
      secondary.length ≤ 2 ∧
      (∀ s ∈ secondary, s.id ∉ primary.map (fun c => c.id)) ∧
      svc.getRelevantContext sqrtQ query conversationHistory maxChunks
        = .ok (String.intercalate "\n\n---\n\n"
            (primary.map (fun c => "## " ++ c.title ++ "\n\n" ++ c.content)
              ++ secondary.map (fun c => "## " ++ c.title
                ++ " (Related Information)" ++ "\n\n" ++ c.content))) := by
  have hagree : ∀ a ∈ boosted, ∀ b ∈ boosted, scoreLe a b = numScoreLe a b := by
    intro a ha b hb'
    obtain ⟨pa, hpa⟩ := hnum a ha
    obtain ⟨pb, hpb⟩ := hnum b hb'
    exact scoreLe_eq_numScoreLe a b pa pb hpa hpb
  have hsort : stableSort scoreLe boosted
      = (stableSort (idxLe numScoreLe) boosted.enum).map Prod.snd := by
    rw [stableSort_enum numScoreLe boosted]
    exact stableSort_congr scoreLe numScoreLe boosted hagree
  have hperm := stableSort_perm (idxLe numScoreLe) boosted.enum
  have htop : topChunksOf boosted maxChunks
      = ((stableSort (idxLe numScoreLe) boosted.enum).take maxChunks).map
        (fun x => x.2.1) := by
    unfold topChunksOf
    rw [hsort, ← List.map_take, List.map_map]
    rfl
  have hsec : ∀ s ∈ ((collectRelatedIds
      (((stableSort (idxLe numScoreLe) boosted.enum).take maxChunks).map
        (fun x => x.2.1))
      ((((stableSort (idxLe numScoreLe) boosted.enum).take maxChunks).map
        (fun x => x.2.1)).map (fun c => c.id))).filterMap
        (mapGet svc.chunkMap)).take 2,
      ((((stableSort (idxLe numScoreLe) boosted.enum).take maxChunks).map
        (fun x => x.2.1)).map (fun c => c.id)).contains s.id = false := by
    intro s hs
    obtain ⟨k, hk, hks⟩ := List.mem_filterMap.mp (List.mem_of_mem_take hs)
    have hkid : s.id = k := mapGet_id svc.chunkMap k s hmap hks
    rw [hkid]
    exact collectRelatedIds_not_mem _ _ k hk
  refine ⟨stableSort (idxLe numScoreLe) boosted.enum, _, _,
    hperm, ?_, rfl, rfl, ?_, ?_, ?_⟩
  · have hpw := stableSort_pairwise (idxLe numScoreLe)
      (idxLe_total numScoreLe numScoreLe_total)
      (idxLe_trans numScoreLe numScoreLe_trans) boosted.enum
    have hnodup : (stableSort (idxLe numScoreLe) boosted.enum).Pairwise
        (fun x y => x.1 ≠ y.1) := by
      have h1 : (boosted.enum.map Prod.fst).Nodup := by
        rw [List.enum_map_fst]
        exact List.nodup_range _
      exact List.pairwise_map.mp ((hperm.map Prod.fst).nodup_iff.mpr h1)
    refine (hpw.and hnodup).imp_of_mem ?_
    intro x y hx hy hxy
    obtain ⟨hord, hne⟩ := hxy
    have hxb : x.2 ∈ boosted := by
      obtain ⟨i, a⟩ := x
      exact List.getElem?_mem
        (List.mk_mem_enum_iff_getElem?.mp (hperm.mem_iff.mp hx))
    have hyb : y.2 ∈ boosted := by
      obtain ⟨i, a⟩ := y
      exact List.getElem?_mem
        (List.mk_mem_enum_iff_getElem?.mp (hperm.mem_iff.mp hy))
    obtain ⟨pa, hpa⟩ := hnum x.2 hxb
    obtain ⟨pb, hpb⟩ := hnum y.2 hyb
    refine ⟨pa, pb, hpa, hpb, ?_⟩
    unfold idxLe numScoreLe at hord
    rw [Bool.and_eq_true, decide_eq_true_eq, Bool.or_eq_true] at hord
    obtain ⟨hle, hor⟩ := hord
    rw [hpa, hpb] at hle hor
    simp only [qOf] at hle hor
    rcases lt_or_le pb pa with h | h
    · exact Or.inl h
    · have heq : pa = pb := le_antisymm h hle
      refine Or.inr ⟨heq, ?_⟩
      rcases hor with h' | h'
      · rw [Bool.not_eq_eq_eq_not, Bool.not_true, decide_eq_false_iff_not]
          at h'
        exact absurd h h'
      · rw [decide_eq_true_eq] at h'
        omega
  · rw [List.length_take]
    exact min_le_left _ _
  · intro s hs hsmem
    have hcont := hsec s hs
    have : ((((stableSort (idxLe numScoreLe) boosted.enum).take
        maxChunks).map (fun x => x.2.1)).map
          (fun c => c.id)).contains s.id = true :=
      List.elem_iff.mpr hsmem
    rw [hcont] at this
    exact Bool.false_ne_true this
  · rw [getRelevantContext_ok sqrtQ svc query conversationHistory maxChunks
      hflag boosted hb]
    unfold renderFromBoosted
    rw [htop]
    refine congrArg Except.ok
      (congrArg (String.intercalate "\n\n---\n\n") ?_)
    rw [List.map_append]
    refine congrArg₂ (· ++ ·) ?_ ?_
    · apply List.map_congr_left
      intro c hc
      have hcc : ((((stableSort (idxLe numScoreLe) boosted.enum).take
          maxChunks).map (fun x => x.2.1)).map
            (fun c => c.id)).contains c.id = true :=
        List.elem_iff.mpr (List.mem_map_of_mem _ hc)
      rw [if_pos hcc, String.append_empty]
    · apply List.map_congr_left
      intro c hc
      rw [hsec c hc, if_neg Bool.false_ne_true]

theorem cosineCore_one_num (vecA vecB : List ℚ) :
    cosineCore (fun _ => (1 : ℚ)) vecA vecB
      = .num (dotP vecA vecB / ((1 : ℚ) * 1)) := by
  unfold cosineCore JsNum.jsDiv
  rw [if_neg (by norm_num)]

theorem boostItem_num (combinedQuery : String) (queryKeywords : List String)
    (c : EnhancedKnowledgeChunk) (s : ℚ) :
    ∃ r : ℚ, (boostItem combinedQuery queryKeywords (c, JsNum.num s)).2
      = JsNum.num r :=
  ⟨_, rfl⟩

theorem getRelevantContext_spec_witness :
    ∃ (ranked : List (ℕ × EnhancedKnowledgeChunk × JsNum))
      (primary secondary : List EnhancedKnowledgeChunk),
      ranked.Perm demoBoosted.enum ∧
      ranked.Pairwise (fun x y => ∃ px py : ℚ,
        x.2.2 = JsNum.num px ∧ y.2.2 = JsNum.num py ∧
          (py < px ∨ (px = py ∧ x.1 < y.1))) ∧
      primary = (ranked.take 1).map (fun x => x.2.1) ∧
      secondary = ((collectRelatedIds primary
          (primary.map (fun c => c.id))).filterMap
          (mapGet demoService.chunkMap)).take 2 ∧
      secondary.length ≤ 2 ∧
      (∀ s ∈ secondary, s.id ∉ primary.map (fun c => c.id)) ∧
      demoService.getRelevantContext (fun _ => (1 : ℚ)) "aaa" "" 1
        = .ok (String.intercalate "\n\n---\n\n"
            (primary.map (fun c => "## " ++ c.title ++ "\n\n" ++ c.content)
              ++ secondary.map (fun c => "## " ++ c.title
                ++ " (Related Information)" ++ "\n\n" ++ c.content))) :=
  getRelevantContext_spec (fun _ => (1 : ℚ)) demoService rfl (by decide)
    "aaa" "" 1 (by decide) demoBoosted
    (scoredCandidates_ok (fun _ => (1 : ℚ)) demoService "aaa" "" (by decide))
    (by
      intro x hx
      have hx' : x ∈ [boostItem ("aaa" ++ " " ++ "")
            (extractKeywords ("aaa" ++ " " ++ ""))
            (chunkA, cosineCore (fun _ => (1 : ℚ))
              (createSimpleEmbedding ("aaa" ++ " " ++ ""))
              chunkA.embedding),
          boostItem ("aaa" ++ " " ++ "")
            (extractKeywords ("aaa" ++ " " ++ ""))
            (chunkB, cosineCore (fun _ => (1 : ℚ))
              (createSimpleEmbedding ("aaa" ++ " " ++ ""))
              chunkB.embedding)] := hx
      rcases List.mem_cons.mp hx' with h | h'
      · subst h
        rw [cosineCore_one_num]
        exact boostItem_num _ _ _ _
      · rcases List.mem_cons.mp h' with h | h
        · subst h
          rw [cosineCore_one_num]
          exact boostItem_num _ _ _ _
        · exact absurd h (List.not_mem_nil x))
